import Mathlib

/-!
# Verification of `decorators.py` (python-api-middleware-decorators)

A shallow embedding of the policy decorators in `src/decorators.py` —
`cache`, `rate_limit`, `retry`, `validate_input`, `circuit_breaker` — and
proofs about their behaviour.  Timestamps, durations and numeric payloads
live in an arbitrary linear ordered commutative ring `K` (Python's floats
enter the policy logic only through `+`, `-`, `*`, `<`, `≥`); concrete
witnesses instantiate `K := ℤ`.  Python exceptions are modelled as a class
tag plus a payload; an `except (E1, E2, ...)` clause catches an exception
whose class is a subclass of a member of the tuple.
-/

set_option linter.unusedSectionVars false

namespace Decorators

variable {K : Type} [LinearOrderedCommRing K]

/-- Python exception classes appearing in the source (plus `AttributeError`,
raised when a missing module attribute such as `functools.signature` is
accessed).  Every listed class other than `exc` is a strict subclass of
`Exception` (`exc`). -/
inductive PyClass where
  | exc            -- Exception
  | valueError     -- ValueError
  | connectionError
  | attributeError
  deriving DecidableEq, Repr

/-- Argument values handed to wrapped operations (opaque to the policies). -/
abbrev Val := ℤ

/-- Payload carried by a raised exception: the message content that the
claims talk about (wait-time hints, offending parameter/value, or an
arbitrary payload of an inner operation). -/
inductive Payload (K : Type) where
  | unit
  | wait (q : K)                         -- wait-time hint in the message
  | param (name : String) (value : Val)  -- parameter name and offending value
  | data (q : K)                         -- opaque payload of an inner failure
  deriving DecidableEq

/-- A Python exception value: its class and its payload. -/
structure PyExc (K : Type) where
  cls : PyClass
  payload : Payload K
  deriving DecidableEq

/-- `c` is (a subclass of) `d`: every class is a subclass of itself and of
`Exception`. -/
def isSubclass (c d : PyClass) : Bool :=
  c = d || d = PyClass.exc

/-- `except tup as e` catches `e` iff the class of `e` is a subclass of some
member of the tuple `tup`. -/
def matchesTuple (tup : List PyClass) (c : PyClass) : Bool :=
  tup.any (fun d => isSubclass c d)

/-! ## `cache(ttl_seconds)` (src/decorators.py lines 150-187)

The cache key is `str(args) + str(sorted(kwargs.items()))`.  We model the
argument tuple as a list of values and the kwargs dict as a list of
name/value pairs with distinct names; `sorted` on `dict.items()` sorts by
name (names are unique, so tuple comparison never reaches the values).  The
two dictionaries `cache_store` / `cache_timestamps` always share their key
set, so we model them as one association list from key to
(value, timestamp). -/

/-- Lexicographic string comparison, as Python compares `str` keys:
character by character by code point, a proper prefix sorting first. -/
def lexLe : List Char → List Char → Bool
  | [], _ => true
  | _ :: _, [] => false
  | a :: as, b :: bs =>
    a.toNat < b.toNat || (a.toNat = b.toNat && lexLe as bs)

/-- `a <= b` on Python strings. -/
def strLe (a b : String) : Bool := lexLe a.data b.data

/-- The order `sorted(kwargs.items())` uses: tuples compare by name first,
and a dict's names are distinct, so the comparison never reaches the
values. -/
def kwLe (a b : String × Val) : Prop := strLe a.1 b.1 = true

instance : DecidableRel kwLe := fun a b =>
  inferInstanceAs (Decidable (strLe a.1 b.1 = true))

/-- `sorted(kwargs.items())`: dictionary items ordered by name. -/
def sortKwargs (kwargs : List (String × Val)) : List (String × Val) :=
  kwargs.insertionSort kwLe

/-- A cache key: the positional-argument tuple together with the kwargs
items sorted by parameter name (`str(args) + str(sorted(kwargs.items()))`). -/
structure CacheKey where
  args : List Val
  sortedKwargs : List (String × Val)
  deriving DecidableEq, Repr

/-- `cache_key = str(args) + str(sorted(kwargs.items()))`. -/
def cacheKey (args : List Val) (kwargs : List (String × Val)) : CacheKey :=
  ⟨args, sortKwargs kwargs⟩

/-- The cache state of one wrapped function: for each key, the stored result
and the time it was stored (`cache_store` and `cache_timestamps`). -/
abbrev CacheStore (K : Type) := List (CacheKey × Val × K)

def storeLookup (s : CacheStore K) (k : CacheKey) : Option (Val × K) :=
  match s.find? (fun e => e.1 = k) with
  | some e => some e.2
  | none => none

def storeErase (s : CacheStore K) (k : CacheKey) : CacheStore K :=
  s.filter (fun e => e.1 ≠ k)

/-- `cache_store[key] = v; cache_timestamps[key] = t` (overwrite). -/
def storeInsert (s : CacheStore K) (k : CacheKey) (v : Val) (t : K) :
    CacheStore K :=
  (k, v, t) :: storeErase s k

/-- One invocation of a `cache(ttl_seconds)`-wrapped function: given the
store, the derived key, the current time and the value the inner function
would compute, return the new store, the returned value, and whether the
inner function was invoked. -/
def cacheCall (ttl : K) (s : CacheStore K) (k : CacheKey) (now : K)
    (fres : Val) : CacheStore K × Val × Bool :=
  match storeLookup s k with
  | some (v, ts) =>
    if now - ts < ttl then
      (s, v, false)
    else
      -- `del cache_store[key]; del cache_timestamps[key]` then recompute
      (storeInsert (storeErase s k) k fres now, fres, true)
  | none => (storeInsert s k fres now, fres, true)

/-! ## `rate_limit(max_calls, period_seconds)` (src/decorators.py lines 193-226)

Per-function call history `_rate_limit_storage[id(func)] : List[float]`.
On each call: prune the history in place to timestamps `t` with
`current_time - t < period_seconds`; if the pruned length is `≥ max_calls`,
raise `Exception` carrying the wait time
`period_seconds - (current_time - call_history[0])` (an `IndexError` would
occur if the pruned history were empty, possible only for `max_calls = 0`);
otherwise append `current_time` and invoke the function. -/

/-- Outcome of one rate-limited call. -/
inductive RLOutcome (K : Type) where
  | admitted                 -- history appended, inner function invoked
  | rateLimited (wait : K)   -- Exception raised, inner function not invoked
  | indexError               -- `call_history[0]` on an empty list
  deriving DecidableEq

/-- `[t for t in call_history if current_time - t < period_seconds]`. -/
def pruneHistory (period now : K) (hist : List K) : List K :=
  hist.filter (fun t => now - t < period)

/-- One invocation of a `rate_limit`-wrapped function: returns the new call
history and the outcome. -/
def rateLimitCall (maxCalls : ℕ) (period : K) (hist : List K) (now : K) :
    List K × RLOutcome K :=
  let pruned := pruneHistory period now hist
  if maxCalls ≤ pruned.length then
    match pruned with
    | [] => (pruned, .indexError)
    | t0 :: _ => (pruned, .rateLimited (period - (now - t0)))
  else
    (pruned ++ [now], .admitted)

/-- Process a monotone sequence of call times through the rate limiter,
collecting the outcome of every call. -/
def rlRun (maxCalls : ℕ) (period : K) (hist : List K) :
    List K → List (RLOutcome K)
  | [] => []
  | t :: ts =>
    let step := rateLimitCall maxCalls period hist t
    step.2 :: rlRun maxCalls period step.1 ts

/-- Modelled from the spec (for the refinement statement of the sliding
window): a call at time `t` succeeds iff fewer than `maxCalls` previously
admitted calls lie in the window `(t - period, t]`; a rejected call carries
wait time `period - (t - oldestCounted)` and does not join the admitted
list. -/
def slidingWindowSpec (maxCalls : ℕ) (period : K) (admitted : List K) :
    List K → List (RLOutcome K)
  | [] => []
  | t :: ts =>
    let counted := admitted.filter (fun s => t - s < period)
    if counted.length < maxCalls then
      .admitted :: slidingWindowSpec maxCalls period (admitted ++ [t]) ts
    else
      .rateLimited (period - (t - counted.headD 0)) ::
        slidingWindowSpec maxCalls period admitted ts

/-! ## `retry(max_attempts, delay, backoff, exceptions)`
(src/decorators.py lines 109-147)

The loop runs attempts `1 .. max_attempts`.  An exception whose class
matches the `exceptions` tuple is caught; if attempts remain the wrapper
sleeps `current_delay` and multiplies it by `backoff`, otherwise the loop
ends and `raise last_exception` re-raises the caught exception.  A
non-matching exception propagates out of the loop at once.  The behaviour
of the wrapped function is a map from attempt number to result. -/

/-- Outcome of a retried call. -/
inductive RetryOutcome (K α : Type) where
  | ok (a : α)              -- some attempt returned normally
  | raised (e : PyExc K)    -- an exception surfaced to the caller
  | raisedNone              -- `raise last_exception` with `None` (max_attempts ≤ 0)
  deriving DecidableEq

/-- The retry loop: `fuel` attempts remain, the next one has index
`attempt` and the current backoff delay is `d`.  Returns the number of
invocations of the inner function, the list of sleeps performed, and the
outcome. -/
def retryLoop (excs : List PyClass) (backoff : K)
    (f : ℕ → Except (PyExc K) α) :
    ℕ → ℕ → K → ℕ × List K × RetryOutcome K α
  | 0, _, _ => (0, [], .raisedNone)
  | fuel + 1, attempt, d =>
    match f attempt with
    | .ok a => (1, [], .ok a)
    | .error e =>
      if matchesTuple excs e.cls then
        match fuel with
        | 0 => (1, [], .raised e)   -- final attempt: loop ends, re-raise e
        | fuel' + 1 =>
          let rest := retryLoop excs backoff f (fuel' + 1) (attempt + 1)
            (d * backoff)
          (rest.1 + 1, d :: rest.2.1, rest.2.2)
      else
        (1, [], .raised e)          -- not caught: propagates immediately

/-- One call of a `retry(max_attempts, delay, backoff, exceptions)`-wrapped
function whose attempt behaviour is `f`. -/
def retryCall (maxAttempts : ℕ) (delay backoff : K) (excs : List PyClass)
    (f : ℕ → Except (PyExc K) α) : ℕ × List K × RetryOutcome K α :=
  retryLoop excs backoff f maxAttempts 1 delay

/-! ## `validate_input(**validators)` (src/decorators.py lines 229-260)

The wrapper's first statement is `func_sig = functools.signature(func)`.
The `functools` module has no attribute `signature` (the function lives in
`inspect`), so this access raises `AttributeError` on every call, before
any validation and before the inner function can run. -/

/-- `functools.signature`: attribute lookup on the `functools` module.  The
module defines no such attribute, so the access raises `AttributeError`. -/
def functoolsSignature : Except (PyExc K) Unit :=
  .error ⟨.attributeError, .unit⟩

/-- One invocation of a `validate_input(**validators)`-wrapped function:
`validators` maps parameter names to predicates, `bound` is the bound
argument mapping (what `func_sig.bind(...)` plus `apply_defaults()` would
produce), and `fres` is the inner function's result.  Returns the outcome
and whether the inner function was invoked. -/
def validateInputCall (validators : List (String × (Val → Bool)))
    (bound : List (String × Val)) (fres : Except (PyExc K) Val) :
    Except (PyExc K) Val × Bool :=
  match functoolsSignature (K := K) with
  | .error e => (.error e, false)
  | .ok _ =>
    match validators.find? (fun nv =>
        match bound.find? (fun p => p.1 = nv.1) with
        | some p => !nv.2 p.2
        | none => false) with
    | some nv =>
      let value := ((bound.find? (fun p => p.1 = nv.1)).map Prod.snd).getD 0
      (.error ⟨.valueError, .param nv.1 value⟩, false)
    | none => (fres, true)

/-! ## `circuit_breaker(failure_threshold, recovery_timeout, exceptions)`
(src/decorators.py lines 266-333)

Per-function storage: `state`, `failure_count`, `last_failure_time`,
`success_count`.  The wrapper reads `state = storage['state']` once at
entry; all later branches test this LOCAL variable, so the call that
performs the Open→HalfOpen transition still sees `state == OPEN` in its
success branch. -/

inductive CircuitState where
  | CLOSED
  | OPEN
  | HALF_OPEN
  deriving DecidableEq, Repr

/-- The per-function circuit-breaker storage. -/
structure Storage (K : Type) where
  state : CircuitState
  failure_count : ℕ
  last_failure_time : K
  success_count : ℕ
  deriving DecidableEq

/-- `storage.setdefault(...)` values at decoration time. -/
def initStorage : Storage K := ⟨.CLOSED, 0, 0, 0⟩

/-- One invocation of a `circuit_breaker`-wrapped function at time `now`
whose inner call would produce `res`.  Returns the new storage, the
surfaced result, and whether the inner function was invoked. -/
def circuitBreakerCall (failureThreshold : ℕ) (recoveryTimeout : K)
    (excs : List PyClass) (st : Storage K) (now : K)
    (res : Except (PyExc K) α) :
    Storage K × Except (PyExc K) α × Bool :=
  let state := st.state
  if state = .OPEN ∧ ¬ (recoveryTimeout ≤ now - st.last_failure_time) then
    -- reject: raise Exception carrying the remaining wait time
    (st, .error ⟨.exc, .wait (recoveryTimeout - (now - st.last_failure_time))⟩,
      false)
  else
    let st1 := if state = .OPEN then
        { st with state := .HALF_OPEN, success_count := 0 }
      else st
    match res with
    | .ok v =>
      let st2 :=
        if state = .HALF_OPEN then
          let st' := { st1 with success_count := st1.success_count + 1 }
          if 2 ≤ st'.success_count then
            { st' with state := .CLOSED, failure_count := 0 }
          else st'
        else st1
      let st3 := if state = .CLOSED then { st2 with failure_count := 0 }
        else st2
      (st3, .ok v, true)
    | .error e =>
      if matchesTuple excs e.cls then
        let st2 := { st1 with failure_count := st1.failure_count + 1,
                              last_failure_time := now }
        let st3 := if failureThreshold ≤ st2.failure_count then
            { st2 with state := .OPEN }
          else st2
        (st3, .error e, true)
      else
        (st1, .error e, true)

/-- Run a sequence of calls `(time, inner result)` through the breaker,
returning the final storage. -/
def cbRun (failureThreshold : ℕ) (recoveryTimeout : K) (excs : List PyClass)
    (st : Storage K) : List (K × Except (PyExc K) α) → Storage K
  | [] => st
  | (t, r) :: cs =>
    cbRun failureThreshold recoveryTimeout excs
      (circuitBreakerCall failureThreshold recoveryTimeout excs st t r).1 cs

/-! ## Basic lemmas -/

theorem storeLookup_insert (s : CacheStore K) (k : CacheKey) (v : Val)
    (t : K) : storeLookup (storeInsert s k v t) k = some (v, t) := by
  simp [storeLookup, storeInsert]

theorem lexLe_total (x y : List Char) : lexLe x y = true ∨ lexLe y x = true := by
  induction x generalizing y with
  | nil => exact Or.inl rfl
  | cons a as ih =>
    cases y with
    | nil => exact Or.inr rfl
    | cons b bs =>
      simp only [lexLe, Bool.or_eq_true, Bool.and_eq_true, decide_eq_true_eq]
      rcases Nat.lt_trichotomy a.toNat b.toNat with h | h | h
      · exact Or.inl (Or.inl h)
      · rcases ih bs with h2 | h2
        · exact Or.inl (Or.inr ⟨h, h2⟩)
        · exact Or.inr (Or.inr ⟨h.symm, h2⟩)
      · exact Or.inr (Or.inl h)

theorem lexLe_trans {x y z : List Char} (h1 : lexLe x y = true)
    (h2 : lexLe y z = true) : lexLe x z = true := by
  induction x generalizing y z with
  | nil => rfl
  | cons a as ih =>
    cases y with
    | nil => simp [lexLe] at h1
    | cons b bs =>
      cases z with
      | nil => simp [lexLe] at h2
      | cons c cs =>
        simp only [lexLe, Bool.or_eq_true, Bool.and_eq_true,
          decide_eq_true_eq] at h1 h2 ⊢
        rcases h1 with h1 | ⟨h1e, h1r⟩ <;> rcases h2 with h2 | ⟨h2e, h2r⟩
        · exact Or.inl (by omega)
        · exact Or.inl (by omega)
        · exact Or.inl (by omega)
        · exact Or.inr ⟨by omega, ih h1r h2r⟩

theorem lexLe_antisymm {x y : List Char} (h1 : lexLe x y = true)
    (h2 : lexLe y x = true) : x = y := by
  induction x generalizing y with
  | nil =>
    cases y with
    | nil => rfl
    | cons b bs => simp [lexLe] at h2
  | cons a as ih =>
    cases y with
    | nil => simp [lexLe] at h1
    | cons b bs =>
      simp only [lexLe, Bool.or_eq_true, Bool.and_eq_true,
        decide_eq_true_eq] at h1 h2
      rcases h1 with h1 | ⟨h1e, h1r⟩ <;> rcases h2 with h2 | ⟨h2e, h2r⟩
      · omega
      · omega
      · omega
      · have hab : a = b := Char.eq_of_val_eq (UInt32.ext h1e)
        rw [hab, ih h1r h2r]

theorem strLe_antisymm {a b : String} (h1 : strLe a b = true)
    (h2 : strLe b a = true) : a = b := by
  have : a.data = b.data := lexLe_antisymm h1 h2
  cases a; cases b; simp only at this; rw [this]

instance : IsTotal (String × Val) kwLe :=
  ⟨fun a b => lexLe_total a.1.data b.1.data⟩

instance : IsTrans (String × Val) kwLe :=
  ⟨fun _ _ _ h1 h2 => lexLe_trans h1 h2⟩

/-- Two lists of name/value pairs that are permutations of each other, both
sorted by name, and whose names are distinct, are equal. -/
theorem sorted_perm_nodup_names_eq : ∀ l1 l2 : List (String × Val),
    l1.Perm l2 → l1.Sorted kwLe → l2.Sorted kwLe →
    (l1.map Prod.fst).Nodup → l1 = l2 := by
  intro l1
  induction l1 with
  | nil =>
    intro l2 hp _ _ _
    exact hp.symm.eq_nil.symm
  | cons a t1 ih =>
    intro l2 hp hs1 hs2 hnd
    cases l2 with
    | nil => exact absurd hp.eq_nil (by simp)
    | cons b t2 =>
      have hmem_a : a ∈ b :: t2 := hp.subset (List.mem_cons_self a t1)
      have hmem_b : b ∈ a :: t1 := hp.symm.subset (List.mem_cons_self b t2)
      have h1 := List.sorted_cons.mp hs1
      have h2 := List.sorted_cons.mp hs2
      have hab : a = b := by
        rcases List.mem_cons.mp hmem_a with h | hat2
        · exact h
        rcases List.mem_cons.mp hmem_b with h | hbt1
        · exact h.symm
        have hba : kwLe b a := h2.1 a hat2
        have hab' : kwLe a b := h1.1 b hbt1
        have hname : a.1 = b.1 := strLe_antisymm hab' hba
        exact List.inj_on_of_nodup_map hnd (List.mem_cons_self a t1) hmem_b
          hname
      subst hab
      have htail : t1 = t2 :=
        ih t2 hp.cons_inv h1.2 h2.2 (List.nodup_cons.mp (by simpa using hnd)).2
      rw [htail]

/-- Keyword-argument dictionaries that are permutations of one another (with
distinct names, as dict keys are) sort to the same item list. -/
theorem sortKwargs_perm_eq (kw1 kw2 : List (String × Val)) (hp : kw1.Perm kw2)
    (hnd : (kw1.map Prod.fst).Nodup) : sortKwargs kw1 = sortKwargs kw2 := by
  apply sorted_perm_nodup_names_eq
  · exact (List.perm_insertionSort kwLe kw1).trans
      (hp.trans (List.perm_insertionSort kwLe kw2).symm)
  · exact List.sorted_insertionSort kwLe kw1
  · exact List.sorted_insertionSort kwLe kw2
  · exact (((List.perm_insertionSort kwLe kw1).map Prod.fst).nodup_iff).mpr hnd

/-! ## Claim theorems: cache -/

/-- C6: for every `cache`-wrapped function with `ttl > 0`, two calls with
identical arguments within `ttl` seconds of each other invoke the inner
operation exactly once and both return the stored value; a call with the
same arguments made once `ttl` seconds have elapsed since the entry was
stored invokes the inner operation again and overwrites the entry with a
fresh timestamp. -/
theorem cache_hit_and_expiry (ttl : K) (_httl : 0 < ttl) (s0 : CacheStore K)
    (k : CacheKey) (t1 t2 : K) (v1 v2 : Val)
    (hmiss : storeLookup s0 k = none) :
    ((cacheCall ttl s0 k t1 v1).2.2 = true ∧
      (cacheCall ttl s0 k t1 v1).2.1 = v1 ∧
      storeLookup (cacheCall ttl s0 k t1 v1).1 k = some (v1, t1)) ∧
    (t2 - t1 < ttl →
      (cacheCall ttl (cacheCall ttl s0 k t1 v1).1 k t2 v2).2.2 = false ∧
      (cacheCall ttl (cacheCall ttl s0 k t1 v1).1 k t2 v2).2.1 = v1 ∧
      (cacheCall ttl (cacheCall ttl s0 k t1 v1).1 k t2 v2).1 =
        (cacheCall ttl s0 k t1 v1).1) ∧
    (ttl ≤ t2 - t1 →
      (cacheCall ttl (cacheCall ttl s0 k t1 v1).1 k t2 v2).2.2 = true ∧
      (cacheCall ttl (cacheCall ttl s0 k t1 v1).1 k t2 v2).2.1 = v2 ∧
      storeLookup (cacheCall ttl (cacheCall ttl s0 k t1 v1).1 k t2 v2).1 k =
        some (v2, t2)) := by
  have hstep1 : cacheCall ttl s0 k t1 v1 = (storeInsert s0 k v1 t1, v1, true) := by
    simp [cacheCall, hmiss]
  refine ⟨?_, ?_, ?_⟩
  · rw [hstep1]
    exact ⟨rfl, rfl, storeLookup_insert s0 k v1 t1⟩
  · intro hfresh
    rw [hstep1]
    simp only [cacheCall, storeLookup_insert]
    rw [if_pos hfresh]
    exact ⟨rfl, rfl, rfl⟩
  · intro hstale
    rw [hstep1]
    simp only [cacheCall, storeLookup_insert]
    rw [if_neg (by linarith)]
    exact ⟨rfl, rfl, storeLookup_insert _ k v2 t2⟩

/-- Witness for `cache_hit_and_expiry` over `K := ℤ` at `ttl = 30`,
`t1 = 0`, `t2 = 1`. -/
theorem cache_hit_and_expiry_witness :
    ((0 : ℤ) < 30 ∧
      storeLookup ([] : CacheStore ℤ) (cacheKey [5] []) = none ∧
      (1 : ℤ) - 0 < 30) ∧
    ((cacheCall 30 (cacheCall (30 : ℤ) [] (cacheKey [5] []) 0 10).1
        (cacheKey [5] []) 1 11).2.2 = false ∧
      (cacheCall 30 (cacheCall (30 : ℤ) [] (cacheKey [5] []) 0 10).1
        (cacheKey [5] []) 1 11).2.1 = 10) := by
  have h := cache_hit_and_expiry (30 : ℤ) (by decide) [] (cacheKey [5] [])
    0 1 10 11 rfl
  have h2 := h.2.1 (by decide)
  exact ⟨⟨by decide, rfl, by decide⟩, h2.1, h2.2.1⟩

/-- C9: for every `cache`-wrapped function configured with `ttl ≤ 0`, every
call whose store holds only entries stamped no later than now invokes the
inner operation and returns its fresh result, never a stored value. -/
theorem cache_nonpositive_ttl_recomputes (ttl : K) (httl : ttl ≤ 0)
    (s : CacheStore K) (k : CacheKey) (now : K) (fres : Val)
    (hts : ∀ v ts, storeLookup s k = some (v, ts) → ts ≤ now) :
    (cacheCall ttl s k now fres).2.2 = true ∧
    (cacheCall ttl s k now fres).2.1 = fres := by
  cases hlk : storeLookup s k with
  | none => simp [cacheCall, hlk]
  | some p =>
    obtain ⟨v, ts⟩ := p
    have hage : ts ≤ now := hts v ts hlk
    have hnot : ¬ (now - ts < ttl) := by linarith
    simp [cacheCall, hlk, hnot]

/-- Witness for `cache_nonpositive_ttl_recomputes` over `K := ℤ`:
`ttl = 0` and a store already holding the key, stamped at time 1, queried
at time 2. -/
theorem cache_nonpositive_ttl_recomputes_witness :
    ((0 : ℤ) ≤ 0 ∧
      ∀ v ts, storeLookup [(cacheKey [5] [], 10, (1 : ℤ))] (cacheKey [5] []) =
        some (v, ts) → ts ≤ 2) ∧
    (cacheCall 0 [(cacheKey [5] [], 10, (1 : ℤ))] (cacheKey [5] []) 2 11).2.2 =
      true ∧
    (cacheCall 0 [(cacheKey [5] [], 10, (1 : ℤ))] (cacheKey [5] []) 2 11).2.1 =
      11 := by
  have hts : ∀ v ts, storeLookup [(cacheKey [5] [], 10, (1 : ℤ))]
      (cacheKey [5] []) = some (v, ts) → ts ≤ (2 : ℤ) := by
    intro v ts h
    simp [storeLookup] at h
    rw [← h.2]
    decide
  exact ⟨⟨le_refl 0, hts⟩,
    (cache_nonpositive_ttl_recomputes 0 (le_refl 0) _ _ 2 11 hts).1,
    (cache_nonpositive_ttl_recomputes 0 (le_refl 0) _ _ 2 11 hts).2⟩

/-- C8: for every `cache`-wrapped function, two calls whose keyword
arguments are permutations of the same name-to-value mapping (identical
positional arguments, distinct names as in any dict) derive the same cache
key, and therefore the second call within `ttl` returns the first call's
stored value without invoking the inner operation. -/
theorem cache_kwargs_order_independent (args : List Val)
    (kw1 kw2 : List (String × Val)) (hp : kw1.Perm kw2)
    (hnd : (kw1.map Prod.fst).Nodup) (ttl : K) (s0 : CacheStore K)
    (t1 t2 : K) (v1 v2 : Val)
    (hmiss : storeLookup s0 (cacheKey args kw1) = none)
    (hfresh : t2 - t1 < ttl) :
    cacheKey args kw1 = cacheKey args kw2 ∧
    (cacheCall ttl (cacheCall ttl s0 (cacheKey args kw1) t1 v1).1
        (cacheKey args kw2) t2 v2).2.2 = false ∧
    (cacheCall ttl (cacheCall ttl s0 (cacheKey args kw1) t1 v1).1
        (cacheKey args kw2) t2 v2).2.1 = v1 := by
  have hkey : cacheKey args kw1 = cacheKey args kw2 := by
    unfold cacheKey
    rw [sortKwargs_perm_eq kw1 kw2 hp hnd]
  have hstep1 : cacheCall ttl s0 (cacheKey args kw1) t1 v1 =
      (storeInsert s0 (cacheKey args kw1) v1 t1, v1, true) := by
    simp [cacheCall, hmiss]
  refine ⟨hkey, ?_⟩
  rw [← hkey, hstep1]
  simp only [cacheCall, storeLookup_insert]
  rw [if_pos hfresh]
  exact ⟨rfl, rfl⟩

/-- Witness for `cache_kwargs_order_independent` over `K := ℤ`: kwargs
`{b: 2, a: 1}` vs `{a: 1, b: 2}`, `ttl = 30`, calls at times 0 and 1. -/
theorem cache_kwargs_order_independent_witness :
    ([("b", (2 : Val)), ("a", 1)].Perm [("a", (1 : Val)), ("b", 2)] ∧
      (([("b", (2 : Val)), ("a", 1)].map Prod.fst).Nodup) ∧
      storeLookup ([] : CacheStore ℤ) (cacheKey [] [("b", 2), ("a", 1)]) =
        none ∧ (1 : ℤ) - 0 < 30) ∧
    cacheKey [] [("b", (2 : Val)), ("a", 1)] =
      cacheKey [] [("a", (1 : Val)), ("b", 2)] ∧
    (cacheCall 30 (cacheCall (30 : ℤ) [] (cacheKey [] [("b", 2), ("a", 1)])
        0 10).1 (cacheKey [] [("a", 1), ("b", 2)]) 1 11).2.2 = false ∧
    (cacheCall 30 (cacheCall (30 : ℤ) [] (cacheKey [] [("b", 2), ("a", 1)])
        0 10).1 (cacheKey [] [("a", 1), ("b", 2)]) 1 11).2.1 = 10 := by
  have hperm : [("b", (2 : Val)), ("a", 1)].Perm [("a", (1 : Val)), ("b", 2)] :=
    List.Perm.swap _ _ _
  have h := cache_kwargs_order_independent [] [("b", 2), ("a", 1)]
    [("a", 1), ("b", 2)] hperm (by decide) (30 : ℤ) [] 0 1 10 11 rfl (by decide)
  exact ⟨⟨hperm, by decide, rfl, by decide⟩, h⟩

/-! ## Claim theorems: rate limiter -/

theorem filter_filter_of_imp {p q : K → Bool} (A : List K)
    (h : ∀ s, q s = true → p s = true) :
    (A.filter p).filter q = A.filter q := by
  induction A with
  | nil => rfl
  | cons a as ih =>
    by_cases hp : p a = true
    · simp [List.filter_cons, hp, ih]
    · have hq : q a = false := by
        cases hqa : q a
        · rfl
        · exact absurd (h a hqa) hp
      simp [List.filter_cons, hp, hq, ih]

/-- Pruning at a later time a history already pruned at an earlier time
gives the later pruning of the full admitted list. -/
theorem prune_filter (P : K) (A : List K) {u t : K} (hut : u ≤ t) :
    pruneHistory P t (A.filter (fun s => decide (u - s < P))) =
      A.filter (fun s => decide (t - s < P)) := by
  unfold pruneHistory
  exact filter_filter_of_imp A (fun s hq => by
    simp only [decide_eq_true_eq] at hq ⊢
    linarith)

/-- The rate limiter refines the sliding-window rule: starting from a
history that is the window-filter of the admitted list, the outcomes of a
monotone call sequence are exactly those of `slidingWindowSpec`. -/
theorem rlRun_eq_slidingWindowSpec (N : ℕ) (P : K) (hN : 1 ≤ N) (hP : 0 < P) :
    ∀ (times A : List K) (u : K), times.Pairwise (· ≤ ·) →
      (∀ t ∈ times, u ≤ t) →
      rlRun N P (A.filter (fun s => decide (u - s < P))) times =
        slidingWindowSpec N P A times := by
  intro times
  induction times with
  | nil => intro A u _ _; rfl
  | cons t ts ih =>
    intro A u hpw hub
    have hut : u ≤ t := hub t (List.mem_cons_self t ts)
    have hpw' := List.pairwise_cons.mp hpw
    have hprune := prune_filter P A hut
    by_cases hlen : (A.filter (fun s => decide (t - s < P))).length < N
    · have hstep : rateLimitCall N P
          (A.filter (fun s => decide (u - s < P))) t =
          (A.filter (fun s => decide (t - s < P)) ++ [t], .admitted) := by
        unfold rateLimitCall
        rw [hprune, if_neg (by omega)]
      have hnext : A.filter (fun s => decide (t - s < P)) ++ [t] =
          (A ++ [t]).filter (fun s => decide (t - s < P)) := by
        rw [List.filter_append]
        have htt : decide (t - t < P) = true := decide_eq_true (by linarith)
        simp [List.filter_cons, htt, hP]
      rw [rlRun, hstep, slidingWindowSpec]
      simp only [if_pos hlen]
      rw [hnext]
      exact congrArg _ (ih (A ++ [t]) t hpw'.2 hpw'.1)
    · have hne : A.filter (fun s => decide (t - s < P)) ≠ [] := by
        intro hnil
        rw [hnil] at hlen
        simp at hlen
        omega
      obtain ⟨t0, rest, hcons⟩ := List.exists_cons_of_ne_nil hne
      have hstep : rateLimitCall N P
          (A.filter (fun s => decide (u - s < P))) t =
          (A.filter (fun s => decide (t - s < P)),
            .rateLimited (P - (t - t0))) := by
        unfold rateLimitCall
        rw [hprune, if_pos (by omega), hcons]
      rw [rlRun, hstep, slidingWindowSpec]
      rw [if_neg (show ¬ (A.filter (fun s => decide (t - s < P))).length < N
        from by omega)]
      have hhead : (A.filter (fun s => decide (t - s < P))).headD 0 = t0 := by
        rw [hcons]
        rfl
      rw [hhead]
      exact congrArg _ (ih A t hpw'.2 hpw'.1)

/-- C3: for every `rate_limit`-wrapped operation with `maxCalls = N ≥ 1` and
period `P > 0`, a monotone call sequence behaves exactly as the sliding
window prescribes: a call is admitted (appending its timestamp and invoking
the inner operation) iff fewer than `N` admitted calls lie within the
preceding `P`-second window, and otherwise it is rejected before invocation,
without appending, with a `RateLimitExceeded` error carrying wait time
`P - (now - oldestCountedEntry)`; entries older than `P` seconds are pruned,
replenishing capacity. -/
theorem rate_limit_sliding_window (N : ℕ) (hN : 1 ≤ N) (P : K) (hP : 0 < P)
    (times : List K) (hmono : times.Pairwise (· ≤ ·)) :
    rlRun N P [] times = slidingWindowSpec N P [] times ∧
    (∀ (hist : List K) (now : K),
      ((rateLimitCall N P hist now).2 = .admitted ↔
        (pruneHistory P now hist).length < N) ∧
      ((pruneHistory P now hist).length < N →
        (rateLimitCall N P hist now).1 = pruneHistory P now hist ++ [now]) ∧
      (N ≤ (pruneHistory P now hist).length →
        ∃ t0 rest, pruneHistory P now hist = t0 :: rest ∧
          rateLimitCall N P hist now =
            (pruneHistory P now hist, .rateLimited (P - (now - t0))))) := by
  constructor
  · cases times with
    | nil => rfl
    | cons t ts =>
      have hb : ∀ s ∈ t :: ts, t ≤ s := by
        intro s hs
        rcases List.mem_cons.mp hs with rfl | hs'
        · exact le_refl s
        · exact (List.pairwise_cons.mp hmono).1 s hs'
      have h := rlRun_eq_slidingWindowSpec N P hN hP (t :: ts) [] t hmono hb
      simpa using h
  · intro hist now
    refine ⟨⟨?_, ?_⟩, ?_, ?_⟩
    · intro hadm
      by_contra hlen
      unfold rateLimitCall at hadm
      rw [if_pos (by omega)] at hadm
      cases hcons : pruneHistory P now hist with
      | nil => rw [hcons] at hadm; simp at hadm
      | cons t0 rest => rw [hcons] at hadm; simp at hadm
    · intro hlen
      unfold rateLimitCall
      rw [if_neg (by omega)]
    · intro hlen
      unfold rateLimitCall
      rw [if_neg (by omega)]
    · intro hlen
      have hne : pruneHistory P now hist ≠ [] := by
        intro hnil
        rw [hnil] at hlen
        simp at hlen
        omega
      obtain ⟨t0, rest, hcons⟩ := List.exists_cons_of_ne_nil hne
      refine ⟨t0, rest, hcons, ?_⟩
      unfold rateLimitCall
      rw [if_pos (by omega), hcons]

/-- Witness for `rate_limit_sliding_window` over `K := ℤ`: `maxCalls = 2`,
`period = 1`, three rapid calls at time 0 — the first two are admitted, the
third is rejected with wait time 1. -/
theorem rate_limit_sliding_window_witness :
    ((1 : ℕ) ≤ 2 ∧ (0 : ℤ) < 1 ∧ ([0, 0, 0] : List ℤ).Pairwise (· ≤ ·)) ∧
    rlRun 2 (1 : ℤ) [] [0, 0, 0] = slidingWindowSpec 2 1 [] [0, 0, 0] ∧
    rlRun 2 (1 : ℤ) [] [0, 0, 0] =
      [.admitted, .admitted, .rateLimited 1] := by
  have hpw : ([0, 0, 0] : List ℤ).Pairwise (· ≤ ·) := by decide
  have h := rate_limit_sliding_window 2 (by decide) (1 : ℤ) (by decide)
    [0, 0, 0] hpw
  exact ⟨⟨by decide, by decide, hpw⟩, h.1, by decide⟩

/-! ## Claim theorems: retrier -/

/-- When every attempt fails with a caught exception kind, the retry loop
performs all its attempts, sleeps the geometric backoff sequence, and
re-raises the last attempt's exception. -/
theorem retryLoop_all_fail {α : Type} (excs : List PyClass) (backoff : K)
    (f : ℕ → PyExc K) (hfail : ∀ k, matchesTuple excs (f k).cls = true) :
    ∀ fuel attempt d, 1 ≤ fuel →
      retryLoop excs backoff
          (fun k => (Except.error (f k) : Except (PyExc K) α)) fuel attempt d =
        (fuel, (List.range (fuel - 1)).map (fun i => d * backoff ^ i),
          .raised (f (attempt + fuel - 1))) := by
  intro fuel
  induction fuel with
  | zero => intro _ _ h; omega
  | succ n ih =>
    intro attempt d _
    cases n with
    | zero => simp [retryLoop, hfail attempt]
    | succ m =>
      have hrec := ih (attempt + 1) (d * backoff) (by omega)
      simp only [retryLoop, hfail attempt, if_true, hrec]
      have hidx : attempt + 1 + (m + 1) - 1 = attempt + (m + 1 + 1) - 1 := by
        omega
      have hw : (List.range (m + 1)).map (fun i => d * backoff ^ i) =
          d :: (List.range m).map (fun i => d * backoff * backoff ^ i) := by
        rw [List.range_succ_eq_map, List.map_cons, List.map_map]
        have hfun : ((fun i => d * backoff ^ i) ∘ Nat.succ) =
            (fun i => d * backoff * backoff ^ i) := by
          funext i
          simp only [Function.comp_apply, pow_succ]
          ring
        rw [hfun, pow_zero, mul_one]
      rw [hidx]
      simp only [Nat.add_sub_cancel]
      rw [hw]

/-- C5: for every `retry`-wrapped function that fails with a retryable
(caught) failure kind on every attempt, the inner operation is invoked
exactly `maxAttempts` times, the wrapper sleeps
`delay, delay*backoff, delay*backoff², …` after each failed non-final
attempt, and the failure surfaced to the caller is the final attempt's
original exception — same kind and payload, not a wrapped one. -/
theorem retry_exhaustion {α : Type} (maxAttempts : ℕ) (hmax : 1 ≤ maxAttempts)
    (delay backoff : K) (excs : List PyClass) (f : ℕ → PyExc K)
    (hfail : ∀ k, matchesTuple excs (f k).cls = true) :
    retryCall maxAttempts delay backoff excs
        (fun k => (Except.error (f k) : Except (PyExc K) α)) =
      (maxAttempts,
        (List.range (maxAttempts - 1)).map (fun i => delay * backoff ^ i),
        .raised (f maxAttempts)) := by
  unfold retryCall
  rw [retryLoop_all_fail excs backoff f hfail maxAttempts 1 delay hmax]
  have hidx : 1 + maxAttempts - 1 = maxAttempts := by omega
  rw [hidx]

/-- Witness for `retry_exhaustion` over `K := ℤ`: three attempts, delay 1,
backoff 2, a function always raising `ConnectionError` — three invocations,
sleeps `[1, 2]`, and the original `ConnectionError` surfaces. -/
theorem retry_exhaustion_witness :
    ((1 : ℕ) ≤ 3 ∧ matchesTuple [PyClass.connectionError]
        (PyExc.mk (K := ℤ) PyClass.connectionError (Payload.data 5)).cls =
        true) ∧
    retryCall 3 (1 : ℤ) 2 [PyClass.connectionError]
        (fun _ => (Except.error ⟨PyClass.connectionError, Payload.data 5⟩ :
          Except (PyExc ℤ) Val)) =
      (3, [1, 2], .raised ⟨PyClass.connectionError, Payload.data 5⟩) := by
  have h := retry_exhaustion (α := Val) 3 (by decide) (1 : ℤ) 2
    [PyClass.connectionError]
    (fun _ => ⟨PyClass.connectionError, Payload.data 5⟩) (fun _ => rfl)
  refine ⟨⟨by decide, by decide⟩, ?_⟩
  rw [h]
  decide

/-! ## Claim theorems: validator -/

/-- C2 (the code contradicts it): every call of a `validate_input`-wrapped
function raises `AttributeError` — `functools.signature` does not exist —
before any validation runs and without invoking the inner operation.  At
the failing input of the repository's own test
(`validated_function(5)` with validator `x ↦ x > 0`), the claim's promised
outcome (invoke the inner operation once and return its result) does not
occur. -/
theorem validate_input_always_attribute_error :
    validateInputCall (K := ℤ) [("x", fun v => decide (0 < v))] [("x", 5)]
        (.ok 10) =
      (.error ⟨.attributeError, .unit⟩, false) := rfl

/-! ## Circuit breaker: step lemmas -/

/-- Open, not yet timed out: reject with the wait-time hint, leaving the
storage untouched and the inner function uninvoked. -/
theorem cbCall_reject (th : ℕ) (rt : K) (excs : List PyClass)
    (st : Storage K) (now : K) (res : Except (PyExc K) Val)
    (hopen : st.state = .OPEN)
    (hwait : ¬ (rt ≤ now - st.last_failure_time)) :
    circuitBreakerCall th rt excs st now res =
      (st, .error ⟨.exc, .wait (rt - (now - st.last_failure_time))⟩,
        false) := by
  cases res <;> simp [circuitBreakerCall, hopen, hwait]

/-- Open and timed out, inner call succeeds: the storage moves to HalfOpen
with `success_count = 0`; the success is NOT counted because the success
branch tests the state read before the transition. -/
theorem cbCall_open_success (th : ℕ) (rt : K) (excs : List PyClass)
    (st : Storage K) (now : K) (v : Val) (hopen : st.state = .OPEN)
    (helap : rt ≤ now - st.last_failure_time) :
    circuitBreakerCall th rt excs st now (.ok v : Except (PyExc K) Val) =
      ({ st with state := .HALF_OPEN, success_count := 0 }, .ok v, true) := by
  simp [circuitBreakerCall, hopen, helap]

/-- A call that begins in HalfOpen and succeeds increments `success_count`;
the second counted success closes the breaker and resets
`failure_count`. -/
theorem cbCall_halfopen_success (th : ℕ) (rt : K) (excs : List PyClass)
    (st : Storage K) (now : K) (v : Val) (hho : st.state = .HALF_OPEN) :
    circuitBreakerCall th rt excs st now (.ok v : Except (PyExc K) Val) =
      (if 2 ≤ st.success_count + 1 then
        { st with
          state := .CLOSED
          failure_count := 0
          success_count := st.success_count + 1 }
      else { st with success_count := st.success_count + 1 },
        .ok v, true) := by
  simp [circuitBreakerCall, hho]

/-- A call that begins in Closed and succeeds resets `failure_count`. -/
theorem cbCall_closed_success (th : ℕ) (rt : K) (excs : List PyClass)
    (st : Storage K) (now : K) (v : Val) (hc : st.state = .CLOSED) :
    circuitBreakerCall th rt excs st now (.ok v : Except (PyExc K) Val) =
      ({ st with failure_count := 0 }, .ok v, true) := by
  simp [circuitBreakerCall, hc]

/-- A qualifying failure from Closed or HalfOpen increments
`failure_count`, records `last_failure_time`, and opens the breaker when
the count reaches the threshold. -/
theorem cbCall_nonopen_failure (th : ℕ) (rt : K) (excs : List PyClass)
    (st : Storage K) (now : K) (e : PyExc K) (hno : st.state ≠ .OPEN)
    (hm : matchesTuple excs e.cls = true) :
    circuitBreakerCall th rt excs st now (.error e : Except (PyExc K) Val) =
      (if th ≤ st.failure_count + 1 then
        { st with
          state := .OPEN
          failure_count := st.failure_count + 1
          last_failure_time := now }
      else { st with
          failure_count := st.failure_count + 1
          last_failure_time := now },
        .error e, true) := by
  simp [circuitBreakerCall, hno, hm]

/-! ## Circuit breaker: counter invariant -/

/-- The implicit invariant: in Open or HalfOpen, `failure_count` has
reached the threshold. -/
def cbInv (th : ℕ) (st : Storage K) : Prop :=
  st.state = .OPEN ∨ st.state = .HALF_OPEN → th ≤ st.failure_count

/-- One call preserves the counter invariant. -/
theorem cbInv_step (th : ℕ) (rt : K) (excs : List PyClass) (st : Storage K)
    (now : K) (res : Except (PyExc K) Val) (hinv : cbInv th st) :
    cbInv th (circuitBreakerCall th rt excs st now res).1 := by
  rcases st with ⟨s, fc, lft, sc⟩
  rcases s <;> rcases res with v | e <;>
    simp only [circuitBreakerCall, cbInv] at hinv ⊢ <;>
    split_ifs <;> simp_all <;> omega

/-- Every storage reachable from `initStorage` satisfies the counter
invariant. -/
theorem cbInv_run (th : ℕ) (rt : K) (excs : List PyClass) :
    ∀ (calls : List (K × Except (PyExc K) Val)) (st : Storage K),
      cbInv th st → cbInv th (cbRun th rt excs st calls) := by
  intro calls
  induction calls with
  | nil => intro st h; exact h
  | cons c cs ih =>
    intro st h
    exact ih _ (cbInv_step th rt excs st c.1 c.2 h)

/-- `failure_count` strictly decreases only to 0, and only when the
resulting state is Closed. -/
theorem cbCall_fc_decrease (th : ℕ) (rt : K) (excs : List PyClass)
    (st : Storage K) (now : K) (res : Except (PyExc K) Val)
    (hdec : (circuitBreakerCall th rt excs st now res).1.failure_count <
      st.failure_count) :
    (circuitBreakerCall th rt excs st now res).1.state = .CLOSED ∧
    (circuitBreakerCall th rt excs st now res).1.failure_count = 0 := by
  rcases st with ⟨s, fc, lft, sc⟩
  rcases s <;> rcases res with v | e <;>
    simp only [circuitBreakerCall] at hdec ⊢ <;>
    split_ifs at hdec ⊢ <;> simp_all

/-- Threshold many consecutive qualifying failures starting from Closed
drive the breaker to Open, recording the last failure time. -/
theorem cbRun_closed_failures (th : ℕ) (rt : K) (excs : List PyClass) :
    ∀ (calls : List (K × PyExc K)) (st : Storage K), st.state = .CLOSED →
      st.failure_count + calls.length = th → 1 ≤ calls.length →
      (∀ c ∈ calls, matchesTuple excs c.2.cls = true) →
      cbRun th rt excs st
          (calls.map (fun c => (c.1, (.error c.2 : Except (PyExc K) Val)))) =
        { st with
          state := .OPEN
          failure_count := th
          last_failure_time :=
            (calls.map Prod.fst).getLastD st.last_failure_time } := by
  intro calls
  induction calls with
  | nil => intro st _ _ hlen _; simp at hlen
  | cons c cs ih =>
    intro st hc hsum _ hq
    have hm : matchesTuple excs c.2.cls = true := hq c (List.mem_cons_self c cs)
    have hno : st.state ≠ .OPEN := by rw [hc]; simp
    have hstep := cbCall_nonopen_failure th rt excs st c.1 c.2 hno hm
    cases cs with
    | nil =>
      have hth : th ≤ st.failure_count + 1 := by
        simp only [List.length_cons, List.length_nil] at hsum
        omega
      have heq : st.failure_count + 1 = th := by
        simp only [List.length_cons, List.length_nil] at hsum
        omega
      simp only [List.map_cons, List.map_nil, cbRun, hstep, if_pos hth]
      simp [heq, List.getLastD]
    | cons c2 cs2 =>
      have hlt : ¬ (th ≤ st.failure_count + 1) := by
        simp only [List.length_cons] at hsum
        omega
      simp only [List.map_cons, cbRun, hstep, if_neg hlt]
      have hrec := ih { st with
          failure_count := st.failure_count + 1
          last_failure_time := c.1 } hc
        (by simp only [List.length_cons] at hsum ⊢; omega)
        (by simp)
        (fun d hd => hq d (List.mem_cons_of_mem c hd))
      simp only [List.map_cons, cbRun] at hrec ⊢
      rw [hrec]
      simp only [List.getLastD_cons]

/-! ## Claim theorems: circuit breaker -/

/-- C4: for every `circuit_breaker`-wrapped operation starting in Closed
with `failure_count = 0`, `failureThreshold ≥ 1` consecutive qualifying
failures transition the breaker to Open recording the last failure's time;
and while the breaker is Open with less than `recoveryTimeout` elapsed
since `last_failure_time`, every call is rejected with an Exception
carrying wait time `recoveryTimeout - (now - last_failure_time)`, without
invoking the inner operation and without changing the storage. -/
theorem circuit_breaker_opens_and_fast_fails (th : ℕ) (hth : 1 ≤ th) (rt : K)
    (excs : List PyClass) (st0 : Storage K) (hclosed : st0.state = .CLOSED)
    (hfc : st0.failure_count = 0) (calls : List (K × PyExc K))
    (hlen : calls.length = th)
    (hq : ∀ c ∈ calls, matchesTuple excs c.2.cls = true) :
    cbRun th rt excs st0
        (calls.map (fun c => (c.1, (.error c.2 : Except (PyExc K) Val)))) =
      { st0 with
        state := .OPEN
        failure_count := th
        last_failure_time :=
          (calls.map Prod.fst).getLastD st0.last_failure_time } ∧
    (∀ (st : Storage K) (now : K) (res : Except (PyExc K) Val),
      st.state = .OPEN → now - st.last_failure_time < rt →
      circuitBreakerCall th rt excs st now res =
        (st, .error ⟨.exc, .wait (rt - (now - st.last_failure_time))⟩,
          false)) := by
  constructor
  · exact cbRun_closed_failures th rt excs calls st0 hclosed
      (by omega) (by omega) hq
  · intro st now res hopen hwait
    exact cbCall_reject th rt excs st now res hopen (not_le.mpr hwait)

/-- Witness for `circuit_breaker_opens_and_fast_fails` over `K := ℤ`:
threshold 2, two `ConnectionError` failures at times 0 and 1 open the
breaker with `last_failure_time = 1`; a call at time 5 (elapsed 4 < 10) is
rejected with wait time 6 and unchanged storage. -/
theorem circuit_breaker_opens_and_fast_fails_witness :
    ((1 : ℕ) ≤ 2 ∧ (initStorage : Storage ℤ).state = .CLOSED ∧
      (initStorage : Storage ℤ).failure_count = 0 ∧
      ([((0 : ℤ), (⟨PyClass.connectionError, Payload.data 0⟩ : PyExc ℤ)),
        (1, ⟨PyClass.connectionError, Payload.data 0⟩)].length = 2)) ∧
    cbRun 2 (10 : ℤ) [PyClass.exc] initStorage
        [((0 : ℤ), (.error ⟨PyClass.connectionError, Payload.data 0⟩ :
          Except (PyExc ℤ) Val)),
         (1, .error ⟨PyClass.connectionError, Payload.data 0⟩)] =
      ⟨.OPEN, 2, 1, 0⟩ ∧
    circuitBreakerCall 2 (10 : ℤ) [PyClass.exc] ⟨.OPEN, 2, 1, 0⟩ 5
        (.ok 0 : Except (PyExc ℤ) Val) =
      (⟨.OPEN, 2, 1, 0⟩, .error ⟨.exc, .wait 6⟩, false) := by
  have h := circuit_breaker_opens_and_fast_fails 2 (by decide) (10 : ℤ)
    [PyClass.exc] initStorage rfl rfl
    [((0 : ℤ), ⟨PyClass.connectionError, Payload.data 0⟩),
     (1, ⟨PyClass.connectionError, Payload.data 0⟩)] rfl
    (by decide)
  refine ⟨⟨by decide, rfl, rfl, rfl⟩, ?_, ?_⟩
  · rw [show ([((0 : ℤ), (.error ⟨PyClass.connectionError, Payload.data 0⟩ :
        Except (PyExc ℤ) Val)), (1, .error ⟨PyClass.connectionError,
        Payload.data 0⟩)]) = ([((0 : ℤ), (⟨PyClass.connectionError,
        Payload.data 0⟩ : PyExc ℤ)), (1, ⟨PyClass.connectionError,
        Payload.data 0⟩)].map (fun c => (c.1, (.error c.2 :
        Except (PyExc ℤ) Val)))) from rfl]
    rw [h.1]
    decide
  · have h2 := h.2 ⟨.OPEN, 2, 1, 0⟩ 5 (.ok 0) rfl (by decide)
    rw [h2]
    rfl

/-- C10: for `failure_threshold ≥ 1`, every breaker state reachable by
repeated invocations satisfies: Open or HalfOpen implies
`failure_count ≥ failure_threshold`; one call preserves the invariant;
`failure_count` drops only to a Closed state; and consequently a single
qualifying failure in HalfOpen returns the breaker to Open, the transition
being guarded by the counter reaching the threshold. -/
theorem circuit_breaker_counter_invariant (th : ℕ) (_hth : 1 ≤ th) (rt : K)
    (excs : List PyClass) :
    (∀ (st : Storage K) (now : K) (res : Except (PyExc K) Val), cbInv th st →
      cbInv th (circuitBreakerCall th rt excs st now res).1) ∧
    (∀ calls : List (K × Except (PyExc K) Val),
      cbInv th (cbRun th rt excs initStorage calls)) ∧
    (∀ (st : Storage K) (now : K) (res : Except (PyExc K) Val),
      (circuitBreakerCall th rt excs st now res).1.failure_count <
        st.failure_count →
      (circuitBreakerCall th rt excs st now res).1.state = .CLOSED) ∧
    (∀ (st : Storage K) (now : K) (e : PyExc K), st.state = .HALF_OPEN →
      cbInv th st → matchesTuple excs e.cls = true →
      (circuitBreakerCall th rt excs st now
        (.error e : Except (PyExc K) Val)).1.state = .OPEN) := by
  refine ⟨fun st now res h => cbInv_step th rt excs st now res h,
    fun calls => cbInv_run th rt excs calls initStorage (fun h => by
      cases h <;> simp [initStorage] at *),
    fun st now res h => (cbCall_fc_decrease th rt excs st now res h).1,
    ?_⟩
  intro st now e hho hinv hm
  have hno : st.state ≠ .OPEN := by rw [hho]; simp
  have hstep := cbCall_nonopen_failure th rt excs st now e hno hm
  have hge : th ≤ st.failure_count := hinv (Or.inr hho)
  rw [hstep, if_pos (by omega)]

/-- Witness for `circuit_breaker_counter_invariant` over `K := ℤ`,
threshold 1: the invariant holds after a failure-then-success run from the
initial storage, and a single qualifying failure from a HalfOpen storage
satisfying the invariant reopens the breaker. -/
theorem circuit_breaker_counter_invariant_witness :
    ((1 : ℕ) ≤ 1 ∧ (⟨.HALF_OPEN, 1, 0, 0⟩ : Storage ℤ).state = .HALF_OPEN ∧
      matchesTuple [PyClass.exc] PyClass.connectionError = true) ∧
    cbInv 1 (cbRun 1 (10 : ℤ) [PyClass.exc] initStorage
      [((0 : ℤ), (.error ⟨PyClass.connectionError, Payload.data 0⟩ :
        Except (PyExc ℤ) Val))]) ∧
    (circuitBreakerCall 1 (10 : ℤ) [PyClass.exc] ⟨.HALF_OPEN, 1, 0, 0⟩ 3
      (.error ⟨PyClass.connectionError, Payload.data 0⟩ :
        Except (PyExc ℤ) Val)).1.state = .OPEN := by
  have h := circuit_breaker_counter_invariant 1 (by decide) (10 : ℤ)
    [PyClass.exc]
  refine ⟨⟨by decide, rfl, by decide⟩, ?_, ?_⟩
  · exact h.2.1 [((0 : ℤ), (.error ⟨PyClass.connectionError,
      Payload.data 0⟩ : Except (PyExc ℤ) Val))]
  · exact h.2.2.2 ⟨.HALF_OPEN, 1, 0, 0⟩ 3
      ⟨PyClass.connectionError, Payload.data 0⟩ rfl (fun _ => by decide)
      (by decide)

/-- C1 as stated is false on the code: with threshold 1 and timeout 1, a
qualifying failure at time 0 opens the breaker; after the timeout, TWO
consecutive successful calls (both at time 1) leave the breaker in
HalfOpen, not Closed — the transition call's success is not counted,
because the success branch tests the state read before the Open→HalfOpen
transition. -/
theorem circuit_breaker_two_successes_counterexample :
    (cbRun 1 (1 : ℤ) [PyClass.exc] initStorage
        [((0 : ℤ), (.error ⟨PyClass.connectionError, Payload.data 0⟩ :
          Except (PyExc ℤ) Val)),
         (1, .ok 0), (1, .ok 0)]).state = .HALF_OPEN ∧
    CircuitState.HALF_OPEN ≠ CircuitState.CLOSED := by
  exact ⟨rfl, by decide⟩

/-- C1 (amended): once `recoveryTimeout` has elapsed since
`last_failure_time`, the next call of an Open breaker transitions it to
HalfOpen (resetting `success_count` to 0) and the inner operation is
attempted — but that transition call's own success is NOT counted (the
success branch tests the state read before the transition).  Each success
of a call that begins in HalfOpen increments `success_count`, and the
second such success transitions to Closed resetting `failure_count` — so
exactly THREE consecutive successful calls after the recovery timeout close
the circuit, while two leave it HalfOpen. -/
theorem circuit_breaker_recovery_amended (th : ℕ) (rt : K)
    (excs : List PyClass) (st : Storage K) (t1 t2 t3 : K) (v1 v2 v3 : Val)
    (hopen : st.state = .OPEN) (helap : rt ≤ t1 - st.last_failure_time) :
    ((circuitBreakerCall th rt excs st t1
        (.ok v1 : Except (PyExc K) Val)).2.2 = true ∧
      (circuitBreakerCall th rt excs st t1 (.ok v1 : Except (PyExc K) Val)).1 =
        { st with state := .HALF_OPEN, success_count := 0 }) ∧
    (∀ st' : Storage K, st'.state = .HALF_OPEN →
      (st'.success_count + 1 < 2 →
        (circuitBreakerCall th rt excs st' t2
            (.ok v2 : Except (PyExc K) Val)).1 =
          { st' with success_count := st'.success_count + 1 }) ∧
      (2 ≤ st'.success_count + 1 →
        (circuitBreakerCall th rt excs st' t2
            (.ok v2 : Except (PyExc K) Val)).1 =
          { st' with
            state := .CLOSED
            failure_count := 0
            success_count := st'.success_count + 1 })) ∧
    (cbRun th rt excs st
        [(t1, (.ok v1 : Except (PyExc K) Val)), (t2, .ok v2)]).state =
      .HALF_OPEN ∧
    cbRun th rt excs st
        [(t1, (.ok v1 : Except (PyExc K) Val)), (t2, .ok v2), (t3, .ok v3)] =
      { st with state := .CLOSED, failure_count := 0, success_count := 2 } := by
  have h1 := cbCall_open_success th rt excs st t1 v1 hopen helap
  refine ⟨⟨by rw [h1], by rw [h1]⟩, ?_, ?_, ?_⟩
  · intro st' hho
    have h2 := cbCall_halfopen_success th rt excs st' t2 v2 hho
    constructor
    · intro hlt
      rw [h2, if_neg (by omega)]
    · intro hge
      rw [h2, if_pos hge]
  · have h2 := cbCall_halfopen_success th rt excs
      { st with state := .HALF_OPEN, success_count := 0 } t2 v2 rfl
    simp only [cbRun, h1, h2]
    rfl
  · have h2 := cbCall_halfopen_success th rt excs
      { st with state := .HALF_OPEN, success_count := 0 } t2 v2 rfl
    rw [if_neg (show ¬ (2 ≤ 0 + 1) by decide)] at h2
    have h3 := cbCall_halfopen_success th rt excs
      { st with state := .HALF_OPEN, success_count := 0 + 1 } t3 v3 rfl
    rw [if_pos (show 2 ≤ 0 + 1 + 1 by decide)] at h3
    simp only [cbRun, h1, h2, h3]

/-- Witness for `circuit_breaker_recovery_amended` over `K := ℤ`:
threshold 1, timeout 1, an Open storage with `last_failure_time = 0`; three
successful calls at time 1 close the breaker, two leave it HalfOpen. -/
theorem circuit_breaker_recovery_amended_witness :
    ((⟨.OPEN, 1, 0, 0⟩ : Storage ℤ).state = .OPEN ∧
      (1 : ℤ) ≤ 1 - (⟨.OPEN, 1, 0, 0⟩ : Storage ℤ).last_failure_time) ∧
    (cbRun 1 (1 : ℤ) [PyClass.exc] (⟨.OPEN, 1, 0, 0⟩ : Storage ℤ)
        [((1 : ℤ), (.ok 0 : Except (PyExc ℤ) Val)), (1, .ok 0)]).state =
      .HALF_OPEN ∧
    cbRun 1 (1 : ℤ) [PyClass.exc] (⟨.OPEN, 1, 0, 0⟩ : Storage ℤ)
        [((1 : ℤ), (.ok 0 : Except (PyExc ℤ) Val)), (1, .ok 0), (1, .ok 0)] =
      ⟨.CLOSED, 0, 0, 2⟩ := by
  have h := circuit_breaker_recovery_amended 1 (1 : ℤ) [PyClass.exc]
    ⟨.OPEN, 1, 0, 0⟩ 1 1 1 0 0 0 rfl (by decide)
  exact ⟨⟨rfl, by decide⟩, h.2.2.1, h.2.2.2⟩

/-- C7 as stated is false on the code: the rejection an Open breaker raises
is a plain `Exception` — the same class an inner operation may raise, and
one the breaker's own default qualifying tuple `(Exception,)` catches — so
it is not a distinct failure kind. -/
theorem circuit_open_kind_counterexample :
    (circuitBreakerCall 1 (10 : ℤ) [PyClass.exc]
        (⟨.OPEN, 1, 0, 0⟩ : Storage ℤ) 5
        (.ok 0 : Except (PyExc ℤ) Val)).2.1 =
      .error ⟨PyClass.exc, .wait 5⟩ ∧
    matchesTuple [PyClass.exc] PyClass.exc = true := by
  exact ⟨rfl, rfl⟩

/-- C7 (amended): the CircuitOpen rejection is raised as the generic
`Exception` kind — not distinct from the inner operation's failure kinds,
and itself matched by the breaker's qualifying tuple — yet it still never
feeds the breaker's own accounting, because it is raised before the
protected invocation: the storage (its `failure_count` and
`last_failure_time` included) is returned unchanged and the inner operation
is not invoked. -/
theorem circuit_open_rejection_no_self_accounting (th : ℕ) (rt : K)
    (excs : List PyClass) (st : Storage K) (now : K)
    (res : Except (PyExc K) Val) (hopen : st.state = .OPEN)
    (hwait : now - st.last_failure_time < rt) :
    circuitBreakerCall th rt excs st now res =
      (st, .error ⟨.exc, .wait (rt - (now - st.last_failure_time))⟩,
        false) ∧
    (circuitBreakerCall th rt excs st now res).1.failure_count =
      st.failure_count ∧
    (circuitBreakerCall th rt excs st now res).1.last_failure_time =
      st.last_failure_time ∧
    matchesTuple [PyClass.exc] PyClass.exc = true := by
  have h := cbCall_reject th rt excs st now res hopen (not_le.mpr hwait)
  exact ⟨h, by rw [h], by rw [h], rfl⟩

/-- Witness for `circuit_open_rejection_no_self_accounting` over `K := ℤ`:
an Open storage with `last_failure_time = 0`, called at time 5 with
timeout 10 — rejected with wait 5, storage unchanged. -/
theorem circuit_open_rejection_no_self_accounting_witness :
    ((⟨.OPEN, 1, 0, 0⟩ : Storage ℤ).state = .OPEN ∧
      (5 : ℤ) - (⟨.OPEN, 1, 0, 0⟩ : Storage ℤ).last_failure_time < 10) ∧
    circuitBreakerCall 1 (10 : ℤ) [PyClass.exc]
        (⟨.OPEN, 1, 0, 0⟩ : Storage ℤ) 5 (.ok 0 : Except (PyExc ℤ) Val) =
      (⟨.OPEN, 1, 0, 0⟩, .error ⟨.exc, .wait 5⟩, false) := by
  have h := circuit_open_rejection_no_self_accounting 1 (10 : ℤ)
    [PyClass.exc] ⟨.OPEN, 1, 0, 0⟩ 5 (.ok 0) rfl (by decide)
  refine ⟨⟨rfl, by decide⟩, ?_⟩
  rw [h.1]
  rfl

end Decorators
